import Mathlib

/-!
Verification of `oci-semver-tagging` (Rust): shallow embedding of the
tag-resolution algorithm (`src/tag.rs`), the driver helpers
(`src/lib.rs` / `src/main.rs`) and the publish orchestrator, together with
proofs settling the frozen claims about the natural-language specification.

Machine integers (`u64` version components) are modelled as `Nat`; the
`semver` crate's parser rejects components `≥ 2^64`, which the embedded
parser mirrors, and the successor arithmetic `tags_to_push` performs on
`u64` components is modelled as addition modulo `2^64` — the release
binary's wrapping semantics (a debug build would panic on the overflow).
-/

/-! ## Semantic versions (the `semver` crate's data model)

A prerelease is a dot-separated list of identifiers; an identifier that
consists only of digits (without leading zeros) is numeric, anything else is
alphanumeric.  The crate stores the raw string but compares identifier-wise;
we store the identifier list directly. -/

inductive PreId where
  | num (value : Nat)
  | alpha (value : String)
deriving DecidableEq, Repr

structure Version where
  major : Nat
  minor : Nat
  patch : Nat
  pre : List PreId
  build : String
deriving DecidableEq, Repr

/-- Comparison of single prerelease identifiers: numeric identifiers compare
numerically and are lower than alphanumeric ones; alphanumeric identifiers
compare in ASCII order. -/
def PreId.comp : PreId → PreId → Ordering
  | .num a, .num b => compare a b
  | .num _, .alpha _ => .lt
  | .alpha _, .num _ => .gt
  | .alpha a, .alpha b => compare a b

/-- Identifier-list comparison for two nonempty (or both empty) prerelease
tails: lexicographic, a strict prefix is smaller. -/
def preTailComp : List PreId → List PreId → Ordering
  | [], [] => .eq
  | [], _ :: _ => .lt
  | _ :: _, [] => .gt
  | x :: xs, y :: ys =>
    match PreId.comp x y with
    | .eq => preTailComp xs ys
    | o => o

/-- Full prerelease comparison: an empty prerelease (a full release) is
greater than any nonempty prerelease. -/
def preComp (a b : List PreId) : Ordering :=
  match a, b with
  | [], [] => .eq
  | [], _ :: _ => .gt
  | _ :: _, [] => .lt
  | _ :: _, _ :: _ => preTailComp a b

def preLt (a b : List PreId) : Prop := preComp a b = Ordering.lt

instance (a b : List PreId) : Decidable (preLt a b) := by
  unfold preLt; infer_instance

/-! ## Standard semver precedence (the ordering the spec describes)

Major, then minor, then patch numerically, then prerelease; build metadata is
ignored.  These definitions follow the spec's words and are used to state the
claims; the code's own requirement matching is embedded separately below. -/

def tripleLt (a b : Version) : Prop :=
  a.major < b.major ∨
    (a.major = b.major ∧ (a.minor < b.minor ∨
      (a.minor = b.minor ∧ a.patch < b.patch)))

/-- The relation `specLt a b`: `a` strictly precedes `b` in standard semver precedence. -/
def specLt (a b : Version) : Prop :=
  tripleLt a b ∨
    (a.major = b.major ∧ a.minor = b.minor ∧ a.patch = b.patch ∧
      preLt a.pre b.pre)

/-- Precedence-equality (build metadata ignored, per the semver spec). -/
def specEquiv (a b : Version) : Prop :=
  a.major = b.major ∧ a.minor = b.minor ∧ a.patch = b.patch ∧ a.pre = b.pre

def specLe (a b : Version) : Prop := specLt a b ∨ specEquiv a b

instance (a b : Version) : Decidable (tripleLt a b) := by
  unfold tripleLt; infer_instance
instance (a b : Version) : Decidable (specLt a b) := by
  unfold specLt; infer_instance
instance (a b : Version) : Decidable (specEquiv a b) := by
  unfold specEquiv; infer_instance
instance (a b : Version) : Decidable (specLe a b) := by
  unfold specLe; infer_instance

/-! ## Version requirements (the `semver` crate's `VersionReq` evaluation)

`tags_to_push` builds requirement strings of the shape
`">=M.m.p, <M.(m+1), <(M+1).0.0"` and `">=M.m, <(M+1).0.0"` and evaluates
them with `VersionReq::matches`.  Only the operators `>=` and `<` occur.
The evaluation below is a direct translation of the crate's `eval.rs`. -/

inductive ReqOp where
  | greaterEq
  | less
deriving DecidableEq, Repr

structure Comparator where
  op : ReqOp
  major : Nat
  minor : Option Nat
  patch : Option Nat
  pre : List PreId
deriving DecidableEq, Repr

def matchesExact (c : Comparator) (v : Version) : Bool :=
  v.major == c.major &&
  (match c.minor with | none => true | some m => v.minor == m) &&
  (match c.patch with | none => true | some p => v.patch == p) &&
  v.pre == c.pre

def matchesGreater (c : Comparator) (v : Version) : Bool :=
  if v.major ≠ c.major then v.major > c.major
  else
    match c.minor with
    | none => false
    | some m =>
      if v.minor ≠ m then v.minor > m
      else
        match c.patch with
        | none => false
        | some p =>
          if v.patch ≠ p then v.patch > p
          else preComp v.pre c.pre = Ordering.gt

def matchesLess (c : Comparator) (v : Version) : Bool :=
  if v.major ≠ c.major then v.major < c.major
  else
    match c.minor with
    | none => false
    | some m =>
      if v.minor ≠ m then v.minor < m
      else
        match c.patch with
        | none => false
        | some p =>
          if v.patch ≠ p then v.patch < p
          else preComp v.pre c.pre = Ordering.lt

def matchesComparator (c : Comparator) (v : Version) : Bool :=
  match c.op with
  | .greaterEq => matchesExact c v || matchesGreater c v
  | .less => matchesLess c v

/-- A candidate with a prerelease only matches a requirement if some
comparator has the same `major.minor.patch` and itself carries a
prerelease. -/
def preIsCompatible (c : Comparator) (v : Version) : Bool :=
  c.major == v.major && c.minor == some v.minor && c.patch == some v.patch &&
    !(c.pre == [])

def matchesReq (cs : List Comparator) (v : Version) : Bool :=
  cs.all (fun c => matchesComparator c v) &&
    (v.pre == ([] : List PreId) || cs.any (fun c => preIsCompatible c v))

/-- The comparators of `">={M}.{m}.{p}, <{M}.{minor_next}, <{major_next}.0.0"`
as parsed by `VersionReq::parse` in `tags_to_push`, where `minor_next` and
`major_next` are computed by `u64` addition: at `u64::MAX` the successor
wraps to `0` in a release build (a debug build panics), so it is taken
modulo `2^64` here. -/
def minorReq (t : Version) : List Comparator :=
  [ ⟨.greaterEq, t.major, some t.minor, some t.patch, []⟩,
    ⟨.less, t.major, some ((t.minor + 1) % 2 ^ 64), none, []⟩,
    ⟨.less, (t.major + 1) % 2 ^ 64, some 0, some 0, []⟩ ]

/-- The comparators of `">={M}.{m}, <{major_next}.0.0"` as parsed by
`VersionReq::parse` in `tags_to_push`, with the same wrapping `u64`
successor for `major_next` as in `minorReq`. -/
def majorReq (t : Version) : List Comparator :=
  [ ⟨.greaterEq, t.major, some t.minor, none, []⟩,
    ⟨.less, (t.major + 1) % 2 ^ 64, some 0, some 0, []⟩ ]

/-! ## The tag resolver (`tags_to_push` in `src/tag.rs`) -/

def prefixStr (pfx : Option String) : String :=
  match pfx with
  | none => ""
  | some s => s

def patchTag (v : Version) (pfx : Option String) : String :=
  prefixStr pfx ++ toString v.major ++ "." ++ toString v.minor ++ "." ++
    toString v.patch

def minorTag (v : Version) (pfx : Option String) : String :=
  prefixStr pfx ++ toString v.major ++ "." ++ toString v.minor

def majorTag (v : Version) (pfx : Option String) : String :=
  prefixStr pfx ++ toString v.major

/-- Translation of `tags_to_push`: derive patch → minor → major, each gating
the next, then reverse the accumulated list. -/
def tagsToPush (version : Version) (existingTags : List Version)
    (pfx : Option String) : List String :=
  let tags : List String :=
    if !(existingTags.any (fun v => v == version)) then
      if !(existingTags.any (fun v => matchesReq (minorReq version) v)) then
        if !(existingTags.any (fun v => matchesReq (majorReq version) v)) then
          [patchTag version pfx, minorTag version pfx, majorTag version pfx]
        else
          [patchTag version pfx, minorTag version pfx]
      else
        [patchTag version pfx]
    else
      []
  tags.reverse

example :
    tagsToPush ⟨1, 2, 3, [], ""⟩ [⟨3, 2, 1, [], ""⟩] none =
      ["1", "1.2", "1.2.3"] := by decide

example :
    tagsToPush ⟨1, 2, 3, [], ""⟩ [⟨3, 2, 1, [], ""⟩] (some "v") =
      ["v1", "v1.2", "v1.2.3"] := by decide

example :
    tagsToPush ⟨1, 2, 3, [], ""⟩ [⟨1, 3, 3, [], ""⟩, ⟨3, 2, 1, [], ""⟩] none =
      ["1.2", "1.2.3"] := by decide

example :
    tagsToPush ⟨1, 2, 3, [], ""⟩ [⟨1, 2, 4, [], ""⟩] none = ["1.2.3"] := by
  decide

example :
    tagsToPush ⟨1, 2, 3, [], ""⟩ [⟨1, 2, 3, [], ""⟩] none = [] := by decide

/- At `major = u64::MAX` the wrapped `major_next` makes the `<0.0.0`
comparator unsatisfiable, so a newer existing version in the same line no
longer suppresses anything and all three tags are emitted. -/
example :
    tagsToPush ⟨2 ^ 64 - 1, 0, 0, [], ""⟩ [⟨2 ^ 64 - 1, 0, 1, [], ""⟩]
        none =
      ["18446744073709551615", "18446744073709551615.0",
        "18446744073709551615.0.0"] := by decide

/-! ## Helper lemmas about the resolver -/

theorem any_beq_iff (e : List Version) (v : Version) :
    e.any (fun w => w == v) = true ↔ v ∈ e := by
  simp [List.any_eq_true]

theorem any_beq_eq_false_iff (e : List Version) (v : Version) :
    e.any (fun w => w == v) = false ↔ v ∉ e := by
  rw [Bool.eq_false_iff, Ne, any_beq_iff]

theorem any_matches_iff (e : List Version) (cs : List Comparator) :
    e.any (fun w => matchesReq cs w) = true ↔
      ∃ w ∈ e, matchesReq cs w = true :=
  List.any_eq_true

theorem any_matches_eq_false_iff (e : List Version) (cs : List Comparator) :
    e.any (fun w => matchesReq cs w) = false ↔
      ¬ ∃ w ∈ e, matchesReq cs w = true := by
  rw [Bool.eq_false_iff, Ne, any_matches_iff]

theorem tagsToPush_eq_cases (v : Version) (e : List Version)
    (pfx : Option String) :
    tagsToPush v e pfx =
      if e.any (fun w => w == v) then []
      else if e.any (fun w => matchesReq (minorReq v) w) then [patchTag v pfx]
      else if e.any (fun w => matchesReq (majorReq v) w) then
        [minorTag v pfx, patchTag v pfx]
      else [majorTag v pfx, minorTag v pfx, patchTag v pfx] := by
  unfold tagsToPush
  cases h1 : e.any (fun w => w == v) <;>
    cases h2 : e.any (fun w => matchesReq (minorReq v) w) <;>
      cases h3 : e.any (fun w => matchesReq (majorReq v) w) <;>
        simp [h1, h2, h3]

theorem ne_of_length_lt {a b : String} (h : a.length < b.length) : a ≠ b := by
  intro he
  rw [he] at h
  exact Nat.lt_irrefl _ h

theorem dot_length : ("." : String).length = 1 := rfl

theorem majorTag_length_lt_minorTag (v : Version) (pfx : Option String) :
    (majorTag v pfx).length < (minorTag v pfx).length := by
  simp only [majorTag, minorTag, String.length_append, dot_length]
  omega

theorem minorTag_length_lt_patchTag (v : Version) (pfx : Option String) :
    (minorTag v pfx).length < (patchTag v pfx).length := by
  simp only [minorTag, patchTag, String.length_append, dot_length]
  omega

theorem minorTag_ne_patchTag (v : Version) (pfx : Option String) :
    minorTag v pfx ≠ patchTag v pfx :=
  ne_of_length_lt (minorTag_length_lt_patchTag v pfx)

theorem majorTag_ne_minorTag (v : Version) (pfx : Option String) :
    majorTag v pfx ≠ minorTag v pfx :=
  ne_of_length_lt (majorTag_length_lt_minorTag v pfx)

theorem majorTag_ne_patchTag (v : Version) (pfx : Option String) :
    majorTag v pfx ≠ patchTag v pfx :=
  ne_of_length_lt
    (Nat.lt_trans (majorTag_length_lt_minorTag v pfx)
      (minorTag_length_lt_patchTag v pfx))

theorem patchTag_mem_iff (v : Version) (e : List Version)
    (pfx : Option String) :
    patchTag v pfx ∈ tagsToPush v e pfx ↔ v ∉ e := by
  rw [tagsToPush_eq_cases]
  cases h1 : e.any (fun w => w == v) <;>
    cases h2 : e.any (fun w => matchesReq (minorReq v) w) <;>
      cases h3 : e.any (fun w => matchesReq (majorReq v) w) <;>
        simp_all [any_beq_iff, any_beq_eq_false_iff]
  all_goals exact fun hv => h1 v hv rfl

theorem minorTag_mem_iff (v : Version) (e : List Version)
    (pfx : Option String) :
    minorTag v pfx ∈ tagsToPush v e pfx ↔
      v ∉ e ∧ ¬ ∃ w ∈ e, matchesReq (minorReq v) w = true := by
  rw [tagsToPush_eq_cases]
  cases h1 : e.any (fun w => w == v) <;>
    cases h2 : e.any (fun w => matchesReq (minorReq v) w) <;>
      cases h3 : e.any (fun w => matchesReq (majorReq v) w) <;>
        simp_all [any_beq_iff, any_beq_eq_false_iff, any_matches_iff,
          any_matches_eq_false_iff, minorTag_ne_patchTag]
  all_goals exact fun hv => h1 v hv rfl

theorem majorTag_mem_iff (v : Version) (e : List Version)
    (pfx : Option String) :
    majorTag v pfx ∈ tagsToPush v e pfx ↔
      v ∉ e ∧ (¬ ∃ w ∈ e, matchesReq (minorReq v) w = true) ∧
        ¬ ∃ w ∈ e, matchesReq (majorReq v) w = true := by
  rw [tagsToPush_eq_cases]
  cases h1 : e.any (fun w => w == v) <;>
    cases h2 : e.any (fun w => matchesReq (minorReq v) w) <;>
      cases h3 : e.any (fun w => matchesReq (majorReq v) w) <;>
        simp_all [any_beq_iff, any_beq_eq_false_iff, any_matches_iff,
          any_matches_eq_false_iff, majorTag_ne_patchTag, majorTag_ne_minorTag]
  all_goals exact fun hv => h1 v hv rfl

/-! ## Relating `VersionReq` matching to standard semver precedence

The comparators generated by `tags_to_push` never carry a prerelease, so a
candidate with a nonempty prerelease can never match either requirement; for
prerelease-free candidates matching coincides with the pure ordering
constraints. -/

theorem matchesReq_minorReq_pre {t v : Version}
    (h : matchesReq (minorReq t) v = true) : v.pre = [] := by
  unfold matchesReq minorReq at h
  simp only [Bool.and_eq_true, Bool.or_eq_true, beq_iff_eq] at h
  rcases h.2 with h2 | h2
  · exact h2
  · simp [preIsCompatible] at h2

theorem matchesReq_majorReq_pre {t v : Version}
    (h : matchesReq (majorReq t) v = true) : v.pre = [] := by
  unfold matchesReq majorReq at h
  simp only [Bool.and_eq_true, Bool.or_eq_true, beq_iff_eq] at h
  rcases h.2 with h2 | h2
  · exact h2
  · simp [preIsCompatible] at h2

theorem matchesReq_minorReq_arith (t v : Version) (hpre : v.pre = [])
    (hm : t.minor + 1 < 2 ^ 64) (hM : t.major + 1 < 2 ^ 64) :
    matchesReq (minorReq t) v = true ↔
      ((t.major < v.major ∨ (t.major = v.major ∧ (t.minor < v.minor ∨
          (t.minor = v.minor ∧ t.patch ≤ v.patch)))) ∧
        (v.major < t.major ∨ (v.major = t.major ∧ v.minor < t.minor + 1)) ∧
        v.major < t.major + 1) := by
  have e1 : (t.minor + 1) % 2 ^ 64 = t.minor + 1 := Nat.mod_eq_of_lt hm
  have e2 : (t.major + 1) % 2 ^ 64 = t.major + 1 := Nat.mod_eq_of_lt hM
  simp only [matchesReq, minorReq, e1, e2, List.all_cons, List.all_nil,
    List.any_cons, List.any_nil, matchesComparator, matchesExact,
    matchesGreater, matchesLess, preIsCompatible, hpre]
  split_ifs <;> simp_all [preComp] <;> omega

theorem matchesReq_majorReq_arith (t v : Version) (hpre : v.pre = [])
    (hM : t.major + 1 < 2 ^ 64) :
    matchesReq (majorReq t) v = true ↔
      ((t.major < v.major ∨ (t.major = v.major ∧ t.minor ≤ v.minor)) ∧
        v.major < t.major + 1) := by
  have e2 : (t.major + 1) % 2 ^ 64 = t.major + 1 := Nat.mod_eq_of_lt hM
  simp only [matchesReq, majorReq, e2, List.all_cons, List.all_nil,
    List.any_cons, List.any_nil, matchesComparator, matchesExact,
    matchesGreater, matchesLess, preIsCompatible, hpre]
  split_ifs <;> simp_all [preComp] <;> omega

theorem specLe_arith (t v : Version) (hpre : v.pre = []) :
    specLe t v ↔
      (t.major < v.major ∨ (t.major = v.major ∧ (t.minor < v.minor ∨
        (t.minor = v.minor ∧ t.patch ≤ v.patch)))) := by
  unfold specLe specLt specEquiv tripleLt preLt
  cases ht : t.pre with
  | nil => simp [hpre, preComp]; omega
  | cons x xs => simp [hpre, preComp]; omega

theorem specLe_minorBase_arith (t v : Version) (hpre : v.pre = []) :
    specLe ⟨t.major, t.minor, 0, [], ""⟩ v ↔
      (t.major < v.major ∨ (t.major = v.major ∧ t.minor ≤ v.minor)) := by
  unfold specLe specLt specEquiv tripleLt preLt
  simp [hpre, preComp]
  omega

theorem specLt_nextMinor_arith (t v : Version) (hpre : v.pre = []) :
    specLt v ⟨t.major, t.minor + 1, 0, [], ""⟩ ↔
      (v.major < t.major ∨ (v.major = t.major ∧ v.minor < t.minor + 1)) := by
  unfold specLt tripleLt preLt
  simp [hpre, preComp]

theorem specLt_nextMajor_arith (t v : Version) (hpre : v.pre = []) :
    specLt v ⟨t.major + 1, 0, 0, [], ""⟩ ↔ v.major < t.major + 1 := by
  unfold specLt tripleLt preLt
  simp [hpre, preComp]

theorem matchesReq_minorReq_iff (t : Version) (hm : t.minor + 1 < 2 ^ 64)
    (hM : t.major + 1 < 2 ^ 64) (v : Version) :
    matchesReq (minorReq t) v = true ↔
      (v.pre = [] ∧ specLe t v ∧
        specLt v ⟨t.major, t.minor + 1, 0, [], ""⟩ ∧
        specLt v ⟨t.major + 1, 0, 0, [], ""⟩) := by
  constructor
  · intro h
    have hpre := matchesReq_minorReq_pre h
    have h2 := (matchesReq_minorReq_arith t v hpre hm hM).mp h
    exact ⟨hpre, (specLe_arith t v hpre).mpr h2.1,
      (specLt_nextMinor_arith t v hpre).mpr h2.2.1,
      (specLt_nextMajor_arith t v hpre).mpr h2.2.2⟩
  · rintro ⟨hpre, h1, h2, h3⟩
    exact (matchesReq_minorReq_arith t v hpre hm hM).mpr
      ⟨(specLe_arith t v hpre).mp h1, (specLt_nextMinor_arith t v hpre).mp h2,
        (specLt_nextMajor_arith t v hpre).mp h3⟩

theorem matchesReq_majorReq_iff (t : Version) (hM : t.major + 1 < 2 ^ 64)
    (v : Version) :
    matchesReq (majorReq t) v = true ↔
      (v.pre = [] ∧ specLe ⟨t.major, t.minor, 0, [], ""⟩ v ∧
        specLt v ⟨t.major + 1, 0, 0, [], ""⟩) := by
  constructor
  · intro h
    have hpre := matchesReq_majorReq_pre h
    have h2 := (matchesReq_majorReq_arith t v hpre hM).mp h
    exact ⟨hpre, (specLe_minorBase_arith t v hpre).mpr h2.1,
      (specLt_nextMajor_arith t v hpre).mpr h2.2⟩
  · rintro ⟨hpre, h1, h2⟩
    exact (matchesReq_majorReq_arith t v hpre hM).mpr
      ⟨(specLe_minorBase_arith t v hpre).mp h1,
        (specLt_nextMajor_arith t v hpre).mp h2⟩

/-! ## Claims C1–C4 about the resolver -/

/-- Counterexample to C1: for target `1.2.3` and existing `{1.2.4-alpha}`,
the existing prerelease version satisfies the pure semver-ordering constraint
`v >= 1.2.3 ∧ v < 1.3.0 ∧ v < 2.0.0`, yet the code still emits the minor tag
`1.2` (the `semver` crate's requirement matching skips prerelease
candidates), so the claimed iff fails: its left side is true while its right
side is false. -/
theorem C1_counterexample :
    minorTag ⟨1, 2, 3, [], ""⟩ none ∈
        tagsToPush ⟨1, 2, 3, [], ""⟩
          [⟨1, 2, 4, [PreId.alpha "alpha"], ""⟩] none ∧
      patchTag ⟨1, 2, 3, [], ""⟩ none ∈
        tagsToPush ⟨1, 2, 3, [], ""⟩
          [⟨1, 2, 4, [PreId.alpha "alpha"], ""⟩] none ∧
      ∃ v ∈ ([⟨1, 2, 4, [PreId.alpha "alpha"], ""⟩] : List Version),
        specLe ⟨1, 2, 3, [], ""⟩ v ∧ specLt v ⟨1, 3, 0, [], ""⟩ ∧
          specLt v ⟨2, 0, 0, [], ""⟩ := by
  decide

/-- C1, amended: for every target whose `minor + 1` and `major + 1` do not
overflow `u64`, the minor tag `{prefix}{major}.{minor}` appears in the
output of `tags_to_push` iff the patch tag was included and no existing
version `v` **with empty prerelease** satisfies
`v >= target ∧ v < major.(minor+1).0 ∧ v < (major+1).0.0` under standard
semver precedence.  Existing prerelease versions never suppress the tag,
because the `semver` crate only lets a prerelease candidate match a
requirement whose comparators carry a prerelease, which these never do; and
at `major = u64::MAX` or `minor = u64::MAX` the wrapped successor makes a
comparator unsatisfiable, so the release binary emits the tag regardless of
the ordering constraint. -/
theorem C1_minor_tag_iff (target : Version) (existing : List Version)
    (pfx : Option String) (hbuild : target.build = "")
    (hminor : target.minor + 1 < 2 ^ 64)
    (hmajor : target.major + 1 < 2 ^ 64) :
    minorTag target pfx ∈ tagsToPush target existing pfx ↔
      (patchTag target pfx ∈ tagsToPush target existing pfx ∧
        ¬ ∃ v ∈ existing, v.pre = [] ∧ specLe target v ∧
          specLt v ⟨target.major, target.minor + 1, 0, [], ""⟩ ∧
          specLt v ⟨target.major + 1, 0, 0, [], ""⟩) := by
  rw [minorTag_mem_iff, patchTag_mem_iff]
  simp only [matchesReq_minorReq_iff target hminor hmajor]

theorem C1_minor_tag_iff_witness :
    minorTag ⟨1, 2, 3, [], ""⟩ none ∈ tagsToPush ⟨1, 2, 3, [], ""⟩ [] none :=
  (C1_minor_tag_iff ⟨1, 2, 3, [], ""⟩ [] none rfl (by decide)
      (by decide)).mpr
    ⟨by decide, by simp⟩

/-- Counterexample to C2: for target `1.2.3` and existing `{1.3.0-alpha}`,
the existing prerelease version satisfies the pure semver-ordering constraint
`v >= 1.2.0 ∧ v < 2.0.0`, yet the code still emits the major tag `1`, so the
claimed iff fails: its left side is true while its right side is false. -/
theorem C2_counterexample :
    majorTag ⟨1, 2, 3, [], ""⟩ none ∈
        tagsToPush ⟨1, 2, 3, [], ""⟩
          [⟨1, 3, 0, [PreId.alpha "alpha"], ""⟩] none ∧
      minorTag ⟨1, 2, 3, [], ""⟩ none ∈
        tagsToPush ⟨1, 2, 3, [], ""⟩
          [⟨1, 3, 0, [PreId.alpha "alpha"], ""⟩] none ∧
      ∃ v ∈ ([⟨1, 3, 0, [PreId.alpha "alpha"], ""⟩] : List Version),
        specLe ⟨1, 2, 0, [], ""⟩ v ∧ specLt v ⟨2, 0, 0, [], ""⟩ := by
  decide

/-- C2, amended: for every target whose `major + 1` does not overflow
`u64`, the major tag `{prefix}{major}` appears in the output of
`tags_to_push` iff the minor tag was included and no existing version `v`
**with empty prerelease** satisfies `v >= major.minor.0 ∧ v < (major+1).0.0`
under standard semver precedence (prerelease versions never suppress it, and
at `major = u64::MAX` the wrapped `<0.0.0` comparator disables suppression,
both for the same reasons as in C1). -/
theorem C2_major_tag_iff (target : Version) (existing : List Version)
    (pfx : Option String) (hbuild : target.build = "")
    (hmajor : target.major + 1 < 2 ^ 64) :
    majorTag target pfx ∈ tagsToPush target existing pfx ↔
      (minorTag target pfx ∈ tagsToPush target existing pfx ∧
        ¬ ∃ v ∈ existing, v.pre = [] ∧
          specLe ⟨target.major, target.minor, 0, [], ""⟩ v ∧
          specLt v ⟨target.major + 1, 0, 0, [], ""⟩) := by
  rw [majorTag_mem_iff, minorTag_mem_iff]
  simp only [matchesReq_majorReq_iff target hmajor]
  tauto

theorem C2_major_tag_iff_witness :
    majorTag ⟨1, 2, 3, [], ""⟩ none ∈ tagsToPush ⟨1, 2, 3, [], ""⟩ [] none :=
  (C2_major_tag_iff ⟨1, 2, 3, [], ""⟩ [] none rfl (by decide)).mpr
    ⟨by decide, by simp⟩

/-- C3: idempotence — if `existing` contains a version exactly equal to
the target (structural semver equality, prerelease included), then
`tags_to_push` returns the empty list. -/
theorem C3_idempotence (v : Version) (existing : List Version)
    (pfx : Option String) (h : v ∈ existing) :
    tagsToPush v existing pfx = [] := by
  rw [tagsToPush_eq_cases, if_pos ((any_beq_iff existing v).mpr h)]

theorem C3_idempotence_witness :
    tagsToPush ⟨1, 2, 3, [], ""⟩ [⟨1, 2, 3, [], ""⟩] none = [] :=
  C3_idempotence ⟨1, 2, 3, [], ""⟩ [⟨1, 2, 3, [], ""⟩] none (by decide)

/-- C4: output shape — the resolver's output is always one of `[]`,
`[patch]`, `[minor, patch]`, `[major, minor, patch]` (most general first,
never any other order), and every returned tag string begins with the
supplied prefix. -/
theorem C4_output_shape (v : Version) (e : List Version)
    (pfx : Option String) :
    (tagsToPush v e pfx = [] ∨ tagsToPush v e pfx = [patchTag v pfx] ∨
      tagsToPush v e pfx = [minorTag v pfx, patchTag v pfx] ∨
      tagsToPush v e pfx =
        [majorTag v pfx, minorTag v pfx, patchTag v pfx]) ∧
    ∀ s ∈ tagsToPush v e pfx, ∃ r, s = prefixStr pfx ++ r := by
  have hshape : tagsToPush v e pfx = [] ∨
      tagsToPush v e pfx = [patchTag v pfx] ∨
      tagsToPush v e pfx = [minorTag v pfx, patchTag v pfx] ∨
      tagsToPush v e pfx =
        [majorTag v pfx, minorTag v pfx, patchTag v pfx] := by
    rw [tagsToPush_eq_cases]
    split_ifs <;> simp
  refine ⟨hshape, ?_⟩
  intro s hs
  have hpatch : patchTag v pfx = prefixStr pfx ++
      (toString v.major ++ "." ++ toString v.minor ++ "." ++
        toString v.patch) := by
    simp [patchTag, String.append_assoc]
  have hminor : minorTag v pfx = prefixStr pfx ++
      (toString v.major ++ "." ++ toString v.minor) := by
    simp [minorTag, String.append_assoc]
  have hmajor : majorTag v pfx = prefixStr pfx ++ toString v.major := rfl
  rcases hshape with h | h | h | h
  · rw [h] at hs
    simp at hs
  · rw [h] at hs
    simp at hs
    exact ⟨_, by rw [hs, hpatch]⟩
  · rw [h] at hs
    simp at hs
    rcases hs with hs | hs
    · exact ⟨_, by rw [hs, hminor]⟩
    · exact ⟨_, by rw [hs, hpatch]⟩
  · rw [h] at hs
    simp at hs
    rcases hs with hs | hs | hs
    · exact ⟨_, by rw [hs, hmajor]⟩
    · exact ⟨_, by rw [hs, hminor]⟩
    · exact ⟨_, by rw [hs, hpatch]⟩

theorem C4_output_shape_witness :
    ∃ r, "v1" = prefixStr (some "v") ++ r :=
  (C4_output_shape ⟨1, 2, 3, [], ""⟩ [] (some "v")).2 "v1" (by decide)

/-! ## String helpers used by the driver (`src/lib.rs`)

`starts_with` and `trim_start_matches` from Rust's standard library:
`trim_start_matches` removes **all** leading occurrences of the pattern
(an empty pattern leaves the string unchanged). -/

def startsWithStr (s p : String) : Bool := p.data.isPrefixOf s.data

/-- Fuelled worker for `trim_start_matches`; each strip removes at least one
character, so `s.length` fuel always reaches the fixpoint. -/
def stripPat : List Char → Nat → List Char → List Char
  | _, 0, s => s
  | p, fuel + 1, s =>
    if p ≠ [] ∧ p.isPrefixOf s then stripPat p fuel (s.drop p.length)
    else s

def trimStartMatches (s pat : String) : String :=
  String.mk (stripPat pat.data s.data.length s.data)

/-! ## The semver parser (`semver::Version::from_str`)

Grammar: `MAJOR.MINOR.PATCH[-PRERELEASE][+BUILD]`; the numeric components
are decimal without leading zeros and must fit in `u64`; prerelease and
build are nonempty dot-separated identifiers over `[0-9A-Za-z-]`, and a
purely numeric prerelease identifier must not have leading zeros. -/

def digitsToNat (ds : List Char) : Nat :=
  ds.foldl (fun a c => a * 10 + (c.toNat - 48)) 0

def parseNumericIdent (cs : List Char) : Option (Nat × List Char) :=
  match cs.takeWhile Char.isDigit with
  | [] => none
  | d :: ds =>
    if d = '0' ∧ ds ≠ [] then none
    else if digitsToNat (d :: ds) < 2 ^ 64 then
      some (digitsToNat (d :: ds), cs.dropWhile Char.isDigit)
    else none

def expectChar (c : Char) : List Char → Option (List Char)
  | [] => none
  | x :: xs => if x = c then some xs else none

def isIdentChar (c : Char) : Bool := c.isAlphanum || c = '-'

def parsePreIdent (cs : List Char) : Option PreId :=
  match cs with
  | [] => none
  | d :: ds =>
    if (d :: ds).all isIdentChar then
      if (d :: ds).all Char.isDigit then
        if d = '0' ∧ ds ≠ [] then none
        else some (.num (digitsToNat (d :: ds)))
      else some (.alpha (String.mk (d :: ds)))
    else none

def splitOnDot (cs : List Char) : List (List Char) :=
  cs.foldr
    (fun c acc =>
      if c = '.' then [] :: acc
      else
        match acc with
        | a :: rest => (c :: a) :: rest
        | [] => [[c]])
    [[]]

def validBuildChars (cs : List Char) : Bool :=
  (splitOnDot cs).all (fun seg => !seg.isEmpty && seg.all isIdentChar)

def Version.fromStr (s : String) : Option Version :=
  match parseNumericIdent s.data with
  | none => none
  | some (major, cs1) =>
    match expectChar '.' cs1 with
    | none => none
    | some cs2 =>
      match parseNumericIdent cs2 with
      | none => none
      | some (minor, cs3) =>
        match expectChar '.' cs3 with
        | none => none
        | some cs4 =>
          match parseNumericIdent cs4 with
          | none => none
          | some (patch, cs5) =>
            match cs5 with
            | [] => some ⟨major, minor, patch, [], ""⟩
            | '-' :: rest =>
              match (splitOnDot (rest.takeWhile (fun c => c ≠ '+'))).mapM
                  parsePreIdent with
              | none => none
              | some pre =>
                match rest.dropWhile (fun c => c ≠ '+') with
                | [] => some ⟨major, minor, patch, pre, ""⟩
                | _ :: bld =>
                  if validBuildChars bld then
                    some ⟨major, minor, patch, pre, String.mk bld⟩
                  else none
            | '+' :: bld =>
              if validBuildChars bld then
                some ⟨major, minor, patch, [], String.mk bld⟩
              else none
            | _ => none

example : Version.fromStr "1.2.3" = some ⟨1, 2, 3, [], ""⟩ := by decide
example : Version.fromStr "v1.2.3" = none := by decide
example : Version.fromStr "1.2" = none := by decide
example : Version.fromStr "1.02.3" = none := by decide
example :
    Version.fromStr "1.2.3-alpha.7" =
      some ⟨1, 2, 3, [.alpha "alpha", .num 7], ""⟩ := by decide
example :
    Version.fromStr "0.8.1+zstd.1.5.0" =
      some ⟨0, 8, 1, [], "zstd.1.5.0"⟩ := by decide
example : Version.fromStr "1.2.3-" = none := by decide
example : Version.fromStr "1.2.3-01" = none := by decide
example :
    Version.fromStr "1.2.3-rc.1+b.2" =
      some ⟨1, 2, 3, [.alpha "rc", .num 1], "b.2"⟩ := by decide
example : trimStartMatches "vv1.2.3" "v" = "1.2.3" := by decide
example : trimStartMatches "v1.2.3" "" = "v1.2.3" := by decide
example : startsWithStr "v1.2.3" "v" = true := by decide
example : startsWithStr "1.2.3" "v" = false := by decide

/-! ## Deriving the existing-version set (`present_semver_tags`) -/

/-- The pure filtering core of `present_semver_tags` (`src/lib.rs`): for each
registry tag, strip the configured prefix (skipping tags that lack it) and
keep the tags whose remainder parses as a semantic version. -/
def presentSemverTags (tags : List String) (pfx : Option String) :
    List Version :=
  tags.filterMap fun t =>
    match pfx with
    | none => Version.fromStr t
    | some p =>
      if startsWithStr t p then Version.fromStr (trimStartMatches t p)
      else none

/-- The derivation as the claim words it: remove the prefix **once** from the
front of each tag that starts with it, parse the remainder, silently exclude
the rest. -/
def specPresentTagsOnce (tags : List String) (pfx : Option String) :
    List Version :=
  tags.filterMap fun t =>
    match pfx with
    | none => Version.fromStr t
    | some p =>
      if startsWithStr t p then
        Version.fromStr (String.mk (t.data.drop p.data.length))
      else none

/-- The claim's derivation with prefix removal amended to Rust's
`trim_start_matches` semantics: remove **all** leading occurrences. -/
def specStripAll (pfx : Option String) (t : String) : Option String :=
  match pfx with
  | none => some t
  | some p =>
    if startsWithStr t p then some (trimStartMatches t p) else none

/-- Counterexample to C5: for the registry tag list `["vv1.2.3"]` and prefix
`"v"`, the code returns `[1.2.3]` (it strips the leading `v` repeatedly),
while the claimed "remove the prefix once" derivation leaves `"v1.2.3"`,
which does not parse, and returns `[]`. -/
theorem C5_counterexample :
    presentSemverTags ["vv1.2.3"] (some "v") = [⟨1, 2, 3, [], ""⟩] ∧
      specPresentTagsOnce ["vv1.2.3"] (some "v") = [] := by
  decide

/-- C5, amended: `present_semver_tags` returns exactly the versions
obtained from the tags that start with the prefix by removing **all leading
occurrences** of the prefix and parsing the remainder; a tag lacking the
prefix or whose remainder does not parse is silently excluded. -/
theorem C5_present_tags_eq (tags : List String) (pfx : Option String) :
    presentSemverTags tags pfx =
      tags.filterMap (fun t => (specStripAll pfx t).bind Version.fromStr) := by
  unfold presentSemverTags specStripAll
  congr 1
  funext t
  cases pfx with
  | none => rfl
  | some p =>
    by_cases h : startsWithStr t p = true
    · simp [h]
    · simp [h]

/-! ## Selecting the target version (`version_to_tag` in `src/lib.rs`) -/

/-- The parts of an `oci_distribution::Reference` used by the driver. -/
structure ImageRef where
  registry : String
  repository : String
  tag : Option String

inductive VersionToTagError where
  | incompatibleBuildMetadata
  | missingTag
  | prefixMismatch
  | unparsableTag
deriving DecidableEq, Repr

/-- Translation of `version_to_tag`: an explicitly supplied version is
accepted iff its build metadata is empty; otherwise the version is parsed
from the image's tag after stripping the prefix. -/
def versionToTag (image : ImageRef) (cliVersion : Option Version)
    (pfx : Option String) : Except VersionToTagError Version :=
  match cliVersion with
  | some version =>
    if version.build = "" then .ok version
    else .error .incompatibleBuildMetadata
  | none =>
    match image.tag with
    | none => .error .missingTag
    | some t =>
      match pfx with
      | none =>
        match Version.fromStr t with
        | some v => .ok v
        | none => .error .unparsableTag
      | some p =>
        if startsWithStr t p then
          match Version.fromStr (trimStartMatches t p) with
          | some v => .ok v
          | none => .error .unparsableTag
        else .error .prefixMismatch

/-- The characters an OCI registry tag may contain
(`[A-Za-z0-9_][A-Za-z0-9._-]{0,127}`); `oci_distribution::Reference`
validates its tag against this grammar, so `'+'` can never occur. -/
def ociTagChar (c : Char) : Bool :=
  c.isAlphanum || c = '_' || c = '.' || c = '-'

theorem mem_of_mem_stripPat {p : List Char} {c : Char} :
    ∀ {fuel : Nat} {s : List Char}, c ∈ stripPat p fuel s → c ∈ s := by
  intro fuel
  induction fuel with
  | zero => intro s h; exact h
  | succ n ih =>
    intro s h
    rw [stripPat] at h
    split at h
    · exact List.mem_of_mem_drop (ih h)
    · exact h

theorem mem_of_mem_trimStartMatches {s pat : String} {c : Char}
    (h : c ∈ (trimStartMatches s pat).data) : c ∈ s.data :=
  mem_of_mem_stripPat h

theorem dropWhile_head_false {α : Type} {p : α → Bool} :
    ∀ {l : List α} {x : α} {xs : List α},
      l.dropWhile p = x :: xs → p x = false := by
  intro l
  induction l with
  | nil =>
    intro x xs h
    simp [List.dropWhile] at h
  | cons a as ih =>
    intro x xs h
    rw [List.dropWhile_cons] at h
    by_cases hpa : p a = true
    · rw [if_pos hpa] at h
      exact ih h
    · rw [if_neg hpa] at h
      injection h with h1 _
      subst h1
      exact Bool.eq_false_iff.mpr hpa

theorem parseNumericIdent_rest {cs : List Char} {n : Nat} {rest : List Char}
    (h : parseNumericIdent cs = some (n, rest)) :
    rest = cs.dropWhile Char.isDigit := by
  unfold parseNumericIdent at h
  split at h
  · simp at h
  · split at h
    · simp at h
    · split at h
      · simp at h
        exact h.2.symm
      · simp at h

theorem parseNumericIdent_rest_mem {cs : List Char} {n : Nat}
    {rest : List Char} (h : parseNumericIdent cs = some (n, rest)) {c : Char}
    (hc : c ∈ rest) : c ∈ cs := by
  rw [parseNumericIdent_rest h] at hc
  exact (List.dropWhile_sublist Char.isDigit).mem hc

theorem expectChar_rest_mem {c : Char} {cs rest : List Char}
    (h : expectChar c cs = some rest) {x : Char} (hx : x ∈ rest) : x ∈ cs := by
  cases cs with
  | nil => simp [expectChar] at h
  | cons y ys =>
    simp only [expectChar] at h
    by_cases hy : y = c
    · rw [if_pos hy] at h
      injection h with h
      subst h
      exact List.mem_cons_of_mem y hx
    · rw [if_neg hy] at h
      simp at h

/-- If parsing succeeded with nonempty build metadata then the input string
contained a `'+'`. -/
theorem fromStr_build_plus {s : String} {v : Version}
    (h : Version.fromStr s = some v) (hb : v.build ≠ "") : '+' ∈ s.data := by
  unfold Version.fromStr at h
  cases h1 : parseNumericIdent s.data with
  | none => simp [h1] at h
  | some r1 =>
    obtain ⟨major, cs1⟩ := r1
    simp only [h1] at h
    cases h2 : expectChar '.' cs1 with
    | none => simp [h2] at h
    | some cs2 =>
      simp only [h2] at h
      cases h3 : parseNumericIdent cs2 with
      | none => simp [h3] at h
      | some r2 =>
        obtain ⟨minor, cs3⟩ := r2
        simp only [h3] at h
        cases h4 : expectChar '.' cs3 with
        | none => simp [h4] at h
        | some cs4 =>
          simp only [h4] at h
          cases h5 : parseNumericIdent cs4 with
          | none => simp [h5] at h
          | some r3 =>
            obtain ⟨patch, cs5⟩ := r3
            simp only [h5] at h
            have hmem : ∀ x ∈ cs5, x ∈ s.data := by
              intro x hx
              exact parseNumericIdent_rest_mem h1
                (expectChar_rest_mem h2
                  (parseNumericIdent_rest_mem h3
                    (expectChar_rest_mem h4
                      (parseNumericIdent_rest_mem h5 hx))))
            split at h
            · injection h with h
              subst h
              simp at hb
            · next rest =>
              split at h
              · simp at h
              · split at h
                · injection h with h
                  subst h
                  simp at hb
                · rename_i w bld heq
                  have hw : w = '+' := by
                    have := dropWhile_head_false heq
                    simpa using this
                  subst hw
                  apply hmem
                  apply List.mem_cons_of_mem
                  have hmw := List.mem_cons_self '+' bld
                  rw [← heq] at hmw
                  exact (List.dropWhile_sublist _).mem hmw
            · next bld =>
              exact hmem _ (List.mem_cons_self _ _)
            · simp at h

theorem fromStr_build_empty {s : String} {v : Version}
    (h : Version.fromStr s = some v) (hplus : '+' ∉ s.data) : v.build = "" := by
  by_contra hb
  exact hplus (fromStr_build_plus h hb)

/-- C8: build-metadata rejection.  An explicitly supplied target version
with nonempty build metadata makes `version_to_tag` return the
incompatible-build-metadata input error, and every version `version_to_tag`
accepts (the only versions ever handed to `tags_to_push` by the driver) has
empty build metadata — for the parsed path this relies on the OCI tag
grammar enforced by `oci_distribution::Reference`, which cannot contain the
`'+'` that build metadata requires. -/
theorem C8_build_metadata (image : ImageRef) (cliVersion : Option Version)
    (pfx : Option String)
    (htag : ∀ t, image.tag = some t → ∀ c ∈ t.data, ociTagChar c = true) :
    (∀ v, cliVersion = some v → v.build ≠ "" →
      versionToTag image cliVersion pfx =
        .error .incompatibleBuildMetadata) ∧
    (∀ v, versionToTag image cliVersion pfx = .ok v → v.build = "") := by
  constructor
  · rintro v rfl hv
    simp [versionToTag, hv]
  · intro v hv
    cases cliVersion with
    | some w =>
      simp only [versionToTag] at hv
      by_cases hw : w.build = ""
      · rw [if_pos hw] at hv
        injection hv with hv
        subst hv
        exact hw
      · rw [if_neg hw] at hv
        exact absurd hv (by simp)
    | none =>
      simp only [versionToTag] at hv
      split at hv
      · exact absurd hv (by simp)
      · rename_i t himg
        have hplus : '+' ∉ t.data := by
          intro hmem
          have := htag t himg '+' hmem
          simp [ociTagChar] at this
        split at hv
        · split at hv
          · rename_i w heq
            injection hv with hv
            subst hv
            exact fromStr_build_empty heq hplus
          · exact absurd hv (by simp)
        · rename_i p
          split at hv
          · split at hv
            · rename_i w heq
              injection hv with hv
              subst hv
              refine fromStr_build_empty heq ?_
              intro hmem
              exact hplus (mem_of_mem_trimStartMatches hmem)
            · exact absurd hv (by simp)
          · exact absurd hv (by simp)

theorem C8_build_metadata_witness :
    versionToTag ⟨"registry", "repo", none⟩
        (some ⟨0, 8, 1, [], "zstd.1.5.0"⟩) none =
      .error .incompatibleBuildMetadata :=
  (C8_build_metadata ⟨"registry", "repo", none⟩
      (some ⟨0, 8, 1, [], "zstd.1.5.0"⟩) none
      (fun _ ht => nomatch ht)).1
    ⟨0, 8, 1, [], "zstd.1.5.0"⟩ rfl (by decide)

/-! ## Credential resolution (`Args::registry_auth` in `src/lib.rs`) -/

inductive RegistryAuth where
  | anonymous
  | basic (user password : String)
deriving DecidableEq, Repr

/-- Possible outcomes of `registry_auth`: a credential, a normal error
result (`Err`), or abnormal termination — `todo!()` panics with the message
"not yet implemented". -/
inductive AuthOutcome where
  | ok (auth : RegistryAuth)
  | err (msg : String)
  | panicked (msg : String)
deriving DecidableEq, Repr

/-- Translation of `Args::registry_auth`; `envLookup` models
`std::env::var`.  The arms are in source order. -/
def registryAuth (user : Option String) (stdin : Bool)
    (envVar : Option String) (envLookup : String → Option String) :
    AuthOutcome :=
  match user, stdin, envVar with
  | none, false, none => .ok .anonymous
  | some _, true, none => .panicked "not yet implemented"
  | some u, false, some envVarName =>
    match envLookup envVarName with
    | some password => .ok (.basic u password)
    | none =>
      .err ("Cannot read password from environment variable " ++
        envVarName ++ ".")
  | _, _, _ => .err "TODO"

def noEnv : String → Option String := fun _ => none

def isNormalErr : AuthOutcome → Bool
  | .err _ => true
  | _ => false

/-- Counterexample to C9: selecting `--password-stdin` together with
`--user` reaches `todo!()`: credential resolution terminates abnormally with
an unimplemented-feature panic instead of returning a normal error
result. -/
theorem C9_counterexample :
    registryAuth (some "user") true none noEnv =
        AuthOutcome.panicked "not yet implemented" ∧
      isNormalErr (registryAuth (some "user") true none noEnv) = false := by
  decide

/-- C9, amended: every argument combination selecting the
password-stdin credential source fails closed before any network call in the
sense that it never yields credentials — but with a user present the code
aborts abnormally via the `todo!()` panic ("not yet implemented"), and only
without one does it return a normal error result. -/
theorem C9_stdin_fails_closed (user envVar : Option String)
    (envLookup : String → Option String) :
    registryAuth user true envVar envLookup =
      (if user.isSome ∧ envVar.isNone then
        AuthOutcome.panicked "not yet implemented"
      else AuthOutcome.err "TODO") := by
  cases user <;> cases envVar <;> rfl

/-! ## The publish orchestrator (`tag` in `src/tag.rs`)

The effectful collaborators are modelled by an environment: `pullManifest`
is the result of the single `pull_manifest` call and `pushManifest d m` the
result of `push_manifest` of manifest `m` to destination reference `d`.
`JoinSet` completes tasks in a nondeterministic order, so the embedding
takes the completion order as an explicit parameter and the theorems
quantify over every permutation of the spawned pushes.  (`join_next`
reporting a task-level failure hits `todo!()` in the source; the spawned
closures are pure values here, so that arm cannot fire.) -/

structure RegistryEnv (E M U : Type) where
  pullManifest : Except E M
  pushManifest : String → M → Except E U

inductive TagError (E : Type) where
  | pullFailed (err : E)
  | pushFailed (dest : String) (err : E)

structure TagTrace (E : Type) where
  pullCount : Nat
  spawned : List String
  result : Except (TagError E) Unit

/-- The destination reference `"{registry}/{repository}:{tag}"` built for
each tag to push. -/
def destRef (image : ImageRef) (t : String) : String :=
  image.registry ++ "/" ++ image.repository ++ ":" ++ t

/-- One iteration of the `join_next` loop: a successful push leaves the
accumulated result unchanged, a failed push overwrites it with that
failure together with the failing destination. -/
def joinStep {E U : Type} (acc : Except (TagError E) Unit)
    (r : Except E U × String) : Except (TagError E) Unit :=
  match r.1 with
  | .ok _ => acc
  | .error e => .error (.pushFailed r.2 e)

/-- Translation of `tag`: resolve the tags, return immediately when there is
nothing to push, otherwise pull the baseline manifest once (failure is
fatal), spawn one push per destination unless dry-run, and drain the join
set in `completionOrder`, folding the per-push outcomes into the final
result. -/
def tagCommand {E M U : Type} (env : RegistryEnv E M U) (image : ImageRef)
    (existingTags : List Version) (version : Version) (pfx : Option String)
    (dryRun : Bool) (completionOrder : List String) : TagTrace E :=
  let tags := tagsToPush version existingTags pfx
  if tags.isEmpty then ⟨0, [], .ok ()⟩
  else
    match env.pullManifest with
    | .error e => ⟨1, [], .error (.pullFailed e)⟩
    | .ok m =>
      let spawned := if dryRun then [] else tags.map (destRef image)
      let results := completionOrder.map fun d => (env.pushManifest d m, d)
      ⟨1, spawned, results.foldl joinStep (.ok ())⟩

theorem foldl_joinStep_all_ok {E U : Type} :
    ∀ (rs : List (Except E U × String)) (acc : Except (TagError E) Unit),
      (∀ r ∈ rs, ∃ u, r.1 = .ok u) → rs.foldl joinStep acc = acc := by
  intro rs
  induction rs with
  | nil => intro acc _; rfl
  | cons r rs ih =>
    intro acc hall
    obtain ⟨u, hu⟩ := hall r (List.mem_cons_self _ _)
    rw [List.foldl_cons]
    have hstep : joinStep acc r = acc := by simp [joinStep, hu]
    rw [hstep]
    exact ih acc fun x hx => hall x (List.mem_cons_of_mem r hx)

theorem foldl_joinStep_eq_ok {E U : Type} :
    ∀ (rs : List (Except E U × String)) (acc : Except (TagError E) Unit),
      rs.foldl joinStep acc = .ok () ↔
        (acc = .ok () ∧ ∀ r ∈ rs, ∃ u, r.1 = .ok u) := by
  intro rs
  induction rs with
  | nil => intro acc; simp
  | cons r rs ih =>
    intro acc
    rw [List.foldl_cons, ih, List.forall_mem_cons]
    cases hr : r.1 with
    | ok u =>
      have hstep : joinStep acc r = acc := by simp [joinStep, hr]
      rw [hstep]
      simp [hr]
    | error e =>
      have hstep : joinStep acc r = .error (.pushFailed r.2 e) := by
        simp [joinStep, hr]
      rw [hstep]
      simp [hr]

theorem foldl_joinStep_last_error {E U : Type}
    (l2 : List (Except E U × String)) (hall : ∀ r ∈ l2, ∃ u, r.1 = .ok u)
    (l1 : List (Except E U × String)) (d : String) (e : E) :
    (l1 ++ ((Except.error e : Except E U), d) :: l2).foldl joinStep
        (Except.ok ()) =
      .error (.pushFailed d e) := by
  rw [List.foldl_append, List.foldl_cons]
  have hstep : joinStep (l1.foldl joinStep (Except.ok ()))
      ((Except.error e : Except E U), d) = .error (.pushFailed d e) := rfl
  rw [hstep]
  exact foldl_joinStep_all_ok l2 _ hall

/-- C6: aggregate publish outcome.  When the manifest pull succeeded and
the join set drains some permutation of the spawned pushes, (a) one push is
spawned per computed tag regardless of any failures (no cancellation:
every spawned push contributes its own outcome to the drained results),
(b) the operation returns success iff every spawned push succeeded, and
(c) on failure it returns the error of the last failing push observed in
completion order, carrying that push's destination reference. -/
theorem C6_push_aggregation {E M U : Type} (env : RegistryEnv E M U)
    (image : ImageRef) (existingTags : List Version) (version : Version)
    (pfx : Option String) (completionOrder : List String) (m : M)
    (hpull : env.pullManifest = .ok m)
    (horder : completionOrder.Perm
      ((tagsToPush version existingTags pfx).map (destRef image))) :
    (tagCommand env image existingTags version pfx false
        completionOrder).spawned =
      (tagsToPush version existingTags pfx).map (destRef image) ∧
    ((tagCommand env image existingTags version pfx false
        completionOrder).result = .ok () ↔
      ∀ d ∈ (tagCommand env image existingTags version pfx false
        completionOrder).spawned, ∃ u, env.pushManifest d m = .ok u) ∧
    ∀ (l1 : List String) (d : String) (l2 : List String) (e : E),
      completionOrder = l1 ++ d :: l2 →
      env.pushManifest d m = .error e →
      (∀ d2 ∈ l2, ∃ u, env.pushManifest d2 m = .ok u) →
      (tagCommand env image existingTags version pfx false
          completionOrder).result = .error (.pushFailed d e) := by
  by_cases hemp : tagsToPush version existingTags pfx = []
  case pos =>
    have horder0 : completionOrder = [] := by
      rw [hemp] at horder
      simpa using horder.eq_nil
    subst horder0
    simp only [tagCommand, hemp]
    refine ⟨by simp, by simp, ?_⟩
    intro l1 d l2 e hdecomp hpushd hall
    have hlen := congrArg List.length hdecomp
    simp at hlen
    omega
  case neg =>
    have heq : tagCommand env image existingTags version pfx false
        completionOrder =
        ⟨1, (tagsToPush version existingTags pfx).map (destRef image),
          (completionOrder.map fun d => (env.pushManifest d m, d)).foldl
            joinStep (.ok ())⟩ := by
      simp only [tagCommand]
      rw [if_neg (by simpa [List.isEmpty_iff] using hemp), hpull]
      rfl
    rw [heq]
    refine ⟨rfl, ?_, ?_⟩
    · show (completionOrder.map fun d => (env.pushManifest d m, d)).foldl
          joinStep (.ok ()) = .ok () ↔
        ∀ d ∈ (tagsToPush version existingTags pfx).map (destRef image),
          ∃ u, env.pushManifest d m = .ok u
      rw [foldl_joinStep_eq_ok]
      constructor
      · rintro ⟨-, hall⟩ d hd
        obtain ⟨u, hu⟩ := hall (env.pushManifest d m, d)
          (List.mem_map_of_mem _ (horder.mem_iff.mpr hd))
        exact ⟨u, hu⟩
      · intro hall
        refine ⟨rfl, ?_⟩
        intro r hr
        obtain ⟨d2, hd2, rfl⟩ := List.mem_map.mp hr
        obtain ⟨u, hu⟩ := hall d2 (horder.mem_iff.mp hd2)
        exact ⟨u, hu⟩
    · intro l1 d l2 e hdecomp hpushd hall
      show (completionOrder.map fun d => (env.pushManifest d m, d)).foldl
          joinStep (.ok ()) = .error (.pushFailed d e)
      rw [hdecomp, List.map_append, List.map_cons]
      have hd : (env.pushManifest d m, d) =
          ((Except.error e : Except E U), d) := by rw [hpushd]
      rw [hd]
      apply foldl_joinStep_last_error
      intro r hr
      simp only [List.mem_map] at hr
      obtain ⟨d2, hd2, rfl⟩ := hr
      obtain ⟨u, hu⟩ := hall d2 hd2
      exact ⟨u, hu⟩

def envAllOk : RegistryEnv String String String :=
  ⟨.ok "manifest", fun d _ => .ok d⟩

def envPullFails : RegistryEnv String String String :=
  ⟨.error "boom", fun d _ => .ok d⟩

theorem C6_push_aggregation_witness :
    (tagCommand envAllOk ⟨"reg", "repo", some "1.2.3"⟩ []
        ⟨1, 2, 3, [], ""⟩ none false
        ["reg/repo:1", "reg/repo:1.2", "reg/repo:1.2.3"]).result =
      .ok () := by
  refine ((C6_push_aggregation envAllOk ⟨"reg", "repo", some "1.2.3"⟩ []
      ⟨1, 2, 3, [], ""⟩ none
      ["reg/repo:1", "reg/repo:1.2", "reg/repo:1.2.3"] "manifest" rfl
      (by decide)).2.1).mpr ?_
  intro d _
  exact ⟨d, rfl⟩

/-- C7: with a non-empty computed tag list, a failing baseline-manifest
pull is fatal: the operation performs the single pull, spawns no push task,
and returns the pull error as the overall result. -/
theorem C7_pull_failure {E M U : Type} (env : RegistryEnv E M U)
    (image : ImageRef) (existingTags : List Version) (version : Version)
    (pfx : Option String) (dryRun : Bool) (completionOrder : List String)
    (e : E) (htags : tagsToPush version existingTags pfx ≠ [])
    (hpull : env.pullManifest = .error e) :
    tagCommand env image existingTags version pfx dryRun completionOrder =
      ⟨1, [], .error (.pullFailed e)⟩ := by
  simp only [tagCommand]
  rw [if_neg (by simpa [List.isEmpty_iff] using htags), hpull]

theorem C7_pull_failure_witness :
    tagCommand envPullFails ⟨"reg", "repo", some "1.2.3"⟩ []
        ⟨1, 2, 3, [], ""⟩ none false [] =
      ⟨1, [], .error (.pullFailed "boom")⟩ :=
  C7_pull_failure envPullFails ⟨"reg", "repo", some "1.2.3"⟩ []
    ⟨1, 2, 3, [], ""⟩ none false [] "boom" (by decide) rfl

/-- C10: in dry-run mode with a non-empty computed tag list, the
operation still performs exactly one manifest pull, spawns no push task, and
returns success iff the manifest pull succeeded. -/
theorem C10_dry_run {E M U : Type} (env : RegistryEnv E M U)
    (image : ImageRef) (existingTags : List Version) (version : Version)
    (pfx : Option String)
    (htags : tagsToPush version existingTags pfx ≠ []) :
    (tagCommand env image existingTags version pfx true []).pullCount = 1 ∧
    (tagCommand env image existingTags version pfx true []).spawned = [] ∧
    ((tagCommand env image existingTags version pfx true []).result =
        .ok () ↔ ∃ m, env.pullManifest = .ok m) := by
  simp only [tagCommand]
  rw [if_neg (by simpa [List.isEmpty_iff] using htags)]
  cases hpull : env.pullManifest with
  | error e =>
    refine ⟨rfl, rfl, ?_⟩
    simp
  | ok m =>
    refine ⟨rfl, rfl, ?_⟩
    simp

theorem C10_dry_run_witness :
    (tagCommand envAllOk ⟨"reg", "repo", some "1.2.3"⟩ []
        ⟨1, 2, 3, [], ""⟩ none true []).result = .ok () :=
  ((C10_dry_run envAllOk ⟨"reg", "repo", some "1.2.3"⟩ []
      ⟨1, 2, 3, [], ""⟩ none (by decide)).2.2).mpr ⟨"manifest", rfl⟩
